import Mathlib

/-!
Shallow embedding of the N-HiTS model core (`src/models/nhits/nhits.py`).

Tensors are modelled as (nested) lists of rationals: a 2-D tensor of shape
(B, T) is a `List (List ℚ)` of B rows of length T, a 3-D tensor of shape
(B, C, T) is a `List (List (List ℚ))`.  Exact rational arithmetic stands in
for floating point; integer width/length arithmetic uses `Nat` with the
truncated division the Python code performs via `math.floor` / `//` on
positive operands.
-/

namespace NHits

/-! ### Elementwise tensor helpers -/

/-- Elementwise addition of two equal-width rows (torch `+`). -/
def vAdd (a b : List ℚ) : List ℚ := List.zipWith (· + ·) a b

/-- Elementwise subtraction of two equal-width rows (torch `-`). -/
def vSub (a b : List ℚ) : List ℚ := List.zipWith (· - ·) a b

/-- Elementwise product of two equal-width rows (torch `*`). -/
def vMul (a b : List ℚ) : List ℚ := List.zipWith (· * ·) a b

/-- Row addition with torch broadcasting over the last dimension: a
width-1 operand is broadcast against the other row (`(B,1) + (B,H)`). -/
def bAddRow (a b : List ℚ) : List ℚ :=
  match a, b with
  | [x], _ => b.map (fun y => x + y)
  | _, [y] => a.map (fun x => x + y)
  | _, _ => List.zipWith (· + ·) a b

/-- Rowwise subtraction of two (B, T) tensors. -/
def mSub (a b : List (List ℚ)) : List (List ℚ) := List.zipWith vSub a b

/-- Rowwise product of two (B, T) tensors. -/
def mMul (a b : List (List ℚ)) : List (List ℚ) := List.zipWith vMul a b

/-- Rowwise broadcasting addition of two (B, T) tensors. -/
def mBAdd (a b : List (List ℚ)) : List (List ℚ) := List.zipWith bAddRow a b

/-- `tensor.flip(dims=(-1,))` on a (B, T) tensor: reverse every row. -/
def flipRows (m : List (List ℚ)) : List (List ℚ) := m.map List.reverse

/-- `tensor.flip(dims=(-1,))` on a (B, C, T) tensor. -/
def flip3 (x : List (List (List ℚ))) : List (List (List ℚ)) := x.map flipRows

/-- `tensor[:, -1:]` on a (B, T) tensor: keep the last column as a (B, 1)
slice. -/
def lastCols (m : List (List ℚ)) : List (List ℚ) :=
  m.map (fun r => r.drop (r.length - 1))

/-- Sum of a list of equal-width rows (sum across one tensor axis). -/
def sumRows : List (List ℚ) → List ℚ
  | [] => []
  | x :: xs => xs.foldl vAdd x

/-! ### `_NHITS.forecast` (lines 751-765) and
`_NHITS.forecast_decomposition` (lines 767-791)

A block is abstracted as a batch-level function taking
(residuals, insample_x_t, outsample_x_t, x_s) and returning
(backcast, forecast), exactly the call shape of `_NHITSBlock.forward`. -/

/-- The interface of one `_NHITSBlock.forward` call. -/
abbrev NBlock :=
  List (List ℚ) → List (List (List ℚ)) → List (List (List ℚ)) → List (List ℚ) →
    List (List ℚ) × List (List ℚ)

/-- The block loop of `_NHITS.forecast`:
`residuals = (residuals - backcast) * insample_mask;
forecast = forecast + block_forecast`. -/
def forecastLoop (ix ox : List (List (List ℚ))) (xs mask : List (List ℚ)) :
    List NBlock → List (List ℚ) → List (List ℚ) → List (List ℚ)
  | [], _, f => f
  | blk :: bs, residuals, f =>
    forecastLoop ix ox xs mask bs
      (mMul (mSub residuals (blk residuals ix ox xs).1) mask)
      (mBAdd f (blk residuals ix ox xs).2)

/-- `_NHITS.forecast`: flip signal, exogenous and mask along time,
seed the forecast with the `insample_y[:, -1:]` slice (naive level), then
run the block loop. -/
def nhitsForecast (blocks : List NBlock) (y : List (List ℚ))
    (ix : List (List (List ℚ))) (mask : List (List ℚ))
    (ox : List (List (List ℚ))) (xs : List (List ℚ)) : List (List ℚ) :=
  forecastLoop (flip3 ix) ox xs (flipRows mask) blocks (flipRows y) (lastCols y)

/-- Written from the spec's words (§4.7): run each block on the current
residual, update the residual to `(residual - backcast) * mask` and add
the block forecast to the accumulator carried as explicit state. -/
def specForecastGo (ix ox : List (List (List ℚ))) (xs mask : List (List ℚ)) :
    List NBlock → List (List ℚ) × List (List ℚ) → List (List ℚ)
  | [], st => st.2
  | blk :: bs, st =>
    specForecastGo ix ox xs mask bs
      (mMul (mSub st.1 (blk st.1 ix ox xs).1) mask,
       mBAdd st.2 (blk st.1 ix ox xs).2)

/-- Written from the spec's words (§4.7): reverse the insample signal,
exogenous and mask (most-recent-first), initialise the running forecast to
the last observed insample value, fold the blocks, return the accumulated
forecast after the last block. -/
def specForecast (blocks : List NBlock) (y : List (List ℚ))
    (ix : List (List (List ℚ))) (mask : List (List ℚ))
    (ox : List (List (List ℚ))) (xs : List (List ℚ)) : List (List ℚ) :=
  specForecastGo (flip3 ix) ox xs (flipRows mask) blocks
    (flipRows y, y.map (fun r => [r.getLastD 0]))

/-- The block loop of `_NHITS.forecast_decomposition`: same recurrence as
`forecastLoop`, additionally recording each raw `block_forecast`. -/
def forecastDecompLoop (ix ox : List (List (List ℚ))) (xs mask : List (List ℚ)) :
    List NBlock → List (List ℚ) → List (List ℚ) →
      List (List ℚ) × List (List (List ℚ))
  | [], _, f => (f, [])
  | blk :: bs, residuals, f =>
    let rest := forecastDecompLoop ix ox xs mask bs
      (mMul (mSub residuals (blk residuals ix ox xs).1) mask)
      (mBAdd f (blk residuals ix ox xs).2)
    (rest.1, (blk residuals ix ox xs).2 :: rest.2)

/-- `level.repeat(1, n_t)` on the (B, 1) level slice: tile every row
`n_t` times along the time dimension. -/
def levelRepeat (nT : ℕ) (level : List (List ℚ)) : List (List ℚ) :=
  level.map (fun r => (List.replicate nT r).flatten)

/-- `t.stack(block_forecasts).permute(1, 0, 2)`: turn the
(n_blocks+1, B, n_t) stack into a (B, n_blocks+1, n_t) tensor. -/
def permute102 (x : List (List (List ℚ))) : List (List (List ℚ)) :=
  (List.range (x.headD []).length).map (fun b => x.map (fun m => m.getD b []))

/-- `_NHITS.forecast_decomposition`: the same recurrence as
`_NHITS.forecast`, recording `[level.repeat(1, n_t)] ++ block forecasts`
where `n_t = outsample_x_t.size(2)`, stacked and permuted to
(B, n_blocks+1, n_t). -/
def nhitsForecastDecomposition (blocks : List NBlock) (y : List (List ℚ))
    (ix : List (List (List ℚ))) (mask : List (List ℚ))
    (ox : List (List (List ℚ))) (xs : List (List ℚ)) :
    List (List ℚ) × List (List (List ℚ)) :=
  let nT := ((ox.headD []).headD []).length
  let level := lastCols y
  let res := forecastDecompLoop (flip3 ix) ox xs (flipRows mask) blocks
    (flipRows y) level
  (res.1, permute102 (levelRepeat nT level :: res.2))

/-! ### Width arithmetic of the conv/linear encoders
(`_NHITSBlock.__init__`, lines 350-554) -/

/-- Output width of `nn.Conv1d(1, 1, kernel_size=k, stride=s)` (and of
`nn.MaxPool1d(k, s)`): `floor((l - k)/s) + 1` with default padding 0 and
dilation 1. -/
def conv1dOutLen (l k s : ℕ) : ℕ := (l - k) / s + 1

/-- Output width of `nn.ConvTranspose1d(1, 1, kernel_size=k, stride=s)`:
`(l - 1)*s + k`. -/
def convTranspose1dOutLen (l k s : ℕ) : ℕ := (l - 1) * s + k

/-- `int(np.ceil(a / b))` for positive integers. -/
def ceilDiv (a b : ℕ) : ℕ := (a + b - 1) / b

/-- `n_time_in_pooled = int(np.ceil(n_time_in / n_pool_kernel_size))`
(line 291). -/
def nTimeInPooled (nTimeIn k : ℕ) : ℕ := ceilDiv nTimeIn k

/-- One step of the hidden-layer loop (lines 350-413): the width the
constructed layer actually produces from a width-`wIn` input given the
configured target `wOut`.  In the strided conv branches the code
overwrites `n_theta_hidden[i+1]` with exactly this value. -/
def hiddenStepWidth (layerMode : String) (wIn wOut : ℕ) : ℕ :=
  if layerMode = "conv" then
    if wOut < wIn then
      if 2 ≤ wIn / wOut then conv1dOutLen wIn (wIn / wOut) (wIn / wOut)
      else conv1dOutLen wIn (wIn - wOut + 1) 1
    else if wIn < wOut then
      if 2 ≤ wOut / wIn then convTranspose1dOutLen wIn (wOut / wIn) (wOut / wIn)
      else convTranspose1dOutLen wIn (wOut - wIn + 1) 1
    else wIn
  else if layerMode = "linear" then wOut
  else wIn

/-- Width after the whole hidden chain, starting from the input width
`w0` and walking the configured `n_theta_hidden` targets (the code's
in-place list mutation makes each comparison use the realized width). -/
def hiddenChainWidth (layerMode : String) (w0 : ℕ) (targets : List ℕ) : ℕ :=
  targets.foldl (hiddenStepWidth layerMode) w0

/-- The kinds of layer the output-layer branches construct
(lines 425-551). -/
inductive OutLayer where
  | linEnc (inF outF : ℕ)
  | convDown (k s : ℕ)
  | convUp (k s : ℕ)
  | maxPoolL (k s : ℕ)
deriving DecidableEq

/-- Width produced by one output-chain layer from a width-`w` input. -/
def outLayerOut (w : ℕ) : OutLayer → ℕ
  | .linEnc _ o => o
  | .convDown k s => conv1dOutLen w k s
  | .convUp k s => convTranspose1dOutLen w k s
  | .maxPoolL k s => conv1dOutLen w k s

/-- The `self.output_layer` list for each output-layer mode, translated
branch by branch from lines 425-551 (`wLast = n_theta_hidden[-1]`). -/
def outputLayerList (outputLayer : String) (wLast nTheta : ℕ) : List OutLayer :=
  if outputLayer = "linear" then
    [.linEnc wLast nTheta]
  else if outputLayer = "conv" then
    if nTheta < wLast then
      if 2 ≤ wLast / nTheta then
        if conv1dOutLen wLast (wLast / nTheta) (wLast / nTheta) ≠ nTheta then
          [.convDown (wLast / nTheta) (wLast / nTheta),
           .linEnc (conv1dOutLen wLast (wLast / nTheta) (wLast / nTheta)) nTheta]
        else [.convDown (wLast / nTheta) (wLast / nTheta)]
      else [.convDown (wLast - nTheta + 1) 1]
    else if wLast < nTheta then
      if 2 ≤ nTheta / wLast then
        if (nTheta / wLast) * wLast ≠ nTheta then
          [.convUp (nTheta / wLast) (nTheta / wLast),
           .linEnc ((nTheta / wLast) * wLast) nTheta]
        else [.convUp (nTheta / wLast) (nTheta / wLast)]
      else [.convUp (nTheta - wLast + 1) 1]
    else [.linEnc wLast nTheta]
  else if outputLayer = "max" then
    if nTheta < wLast then
      if 2 ≤ wLast / nTheta then
        if conv1dOutLen wLast (wLast / nTheta) (wLast / nTheta) ≠ nTheta then
          [.maxPoolL (wLast / nTheta) (wLast / nTheta),
           .linEnc (conv1dOutLen wLast (wLast / nTheta) (wLast / nTheta)) nTheta]
        else [.maxPoolL (wLast / nTheta) (wLast / nTheta)]
      else [.maxPoolL (wLast - nTheta + 1) 1]
    else [.linEnc wLast nTheta]
  else []

/-- Width after the output chain. -/
def chainOut (w : ℕ) (ls : List OutLayer) : ℕ := ls.foldl outLayerOut w

/-! ### Pooling layers (`nn.MaxPool1d`, `StochasticPool1D`, lines 212-241,
320-334) -/

/-- `tensor.unfold(1, k, s)` on one row: the list of its kernel-sized
windows, `floor((len - k)/s) + 1` of them. -/
def unfold1d (k s : ℕ) (xs : List ℚ) : List (List ℚ) :=
  (List.range ((xs.length - k) / s + 1)).map (fun i => (xs.drop (i * s)).take k)

/-- `nn.MaxPool1d(kernel_size=k, stride=s)` on one row (default
padding 0, dilation 1, `ceil_mode=False`). -/
def maxPool1dRow (k s : ℕ) (xs : List ℚ) : List ℚ :=
  (unfold1d k s xs).map (fun w => w.foldl max (w.headD 0))

/-- `tensor.view(nRows, width)` on a flat list. -/
def reshapeRows (nRows width : ℕ) (xs : List ℚ) : List (List ℚ) :=
  (List.range nRows).map (fun r => (xs.drop (r * width)).take width)

/-- `StochasticPool1D.forward` (lines 228-241) with the random draws
`idx` (one value in `[0, k)` per output position, `randint`) passed in:
unfold into windows, flatten to a (B·W, k) view, then `t.take(x, idx)` —
which indexes the *flattened* view — and reshape to
`(B, int(L / k))`. -/
def stochasticPoolForward (k : ℕ) (x : List (List ℚ)) (idx : List ℕ) :
    List (List ℚ) :=
  let windows := (x.map (unfold1d k k)).flatten
  let flat := windows.flatten
  let taken := idx.map (fun m => flat.getD m 0)
  reshapeRows x.length ((x.headD []).length / k) taken

/-- Modelled from the spec (§4.2 "stochastic"): for each kernel-sized
window, select the element at the drawn offset for that output position;
output position j of batch element b reads window (b, j) at offset
`idx[b*W + j]`. -/
def stochasticPoolSpec (k : ℕ) (x : List (List ℚ)) (idx : List ℕ) :
    List (List ℚ) :=
  let windows := (x.map (unfold1d k k)).flatten
  let taken := (List.range windows.length).map
    (fun m => (windows.getD m []).getD (idx.getD m 0) 0)
  reshapeRows x.length ((x.headD []).length / k) taken

/-! ### `IdentityBasis` (lines 180-210) -/

/-- Substring test on strings (Python's `'cubic' in mode`). -/
def strContains (hay needle : String) : Bool :=
  (List.range (hay.data.length + 1)).any
    (fun i => needle.data.isPrefixOf (hay.data.drop i))

/-- The constructor assert of `IdentityBasis` (line 183). -/
def interpModeOk (mode : String) : Bool :=
  mode = "linear" || mode = "nearest" || strContains mode "cubic"

/-- Python's `str.split(sep)` for a one-character separator, on the
character list of a string: split at every occurrence, keeping empty
components. -/
def splitOnChar (c : Char) (l : List Char) : List (List Char) :=
  l.foldr (fun ch acc =>
    if ch = c then [] :: acc
    else match acc with
      | [] => [[ch]]
      | g :: gs => (ch :: g) :: gs) [[]]

/-- Python's `int(...)` on a component produced by `split('-')`: parses a
nonempty all-digit string, fails otherwise. -/
def digitsToNat? (l : List Char) : Option ℕ :=
  if l.isEmpty then none
  else l.foldl (fun acc ch =>
    match acc with
    | none => none
    | some n =>
      if 48 ≤ ch.toNat ∧ ch.toNat ≤ 57 then some (n * 10 + (ch.toNat - 48))
      else none) (some 0)

/-- `int(self.interpolation_mode.split('-')[-1])`: the cubic sub-batch
size parsed from the mode string. -/
def cubicBatchSize (mode : String) : Option ℕ :=
  digitsToNat? ((splitOnChar '-' mode.data).getLastD [])

/-- `F.interpolate(knots, size=fs, mode='nearest')` on one row of K knots:
output j reads knot `floor(j * K / fs)`. -/
def nearestInterp1d (fs : ℕ) (knots : List ℚ) : List ℚ :=
  (List.range fs).map (fun j => knots.getD (j * knots.length / fs) 0)

/-- `F.interpolate(knots, size=fs, mode='linear')` (align_corners=False)
on one row of K knots: source index `s = K/fs * (j + 1/2) - 1/2` clamped
below at 0, then linear blend of the two neighbouring knots. -/
def linearInterp1d (fs : ℕ) (knots : List ℚ) : List ℚ :=
  let K := knots.length
  (List.range fs).map (fun (j : ℕ) =>
    let s : ℚ := max ((K : ℚ) * ((j : ℚ) + 1/2) / (fs : ℚ) - 1/2) 0
    let i0 : ℕ := (⌊s⌋).toNat
    let lam : ℚ := s - (i0 : ℚ)
    let i1 : ℕ := min (i0 + 1) (K - 1)
    (1 - lam) * knots.getD i0 0 + lam * knots.getD i1 0)

/-- PyTorch's cubic convolution kernel on `[0, 1]` (`cubic_convolution1`
with A = -0.75). -/
def cubicConvNear (x a : ℚ) : ℚ := ((a + 2) * x - (a + 3)) * x * x + 1

/-- PyTorch's cubic convolution kernel on `[1, 2]` (`cubic_convolution2`
with A = -0.75). -/
def cubicConvFar (x a : ℚ) : ℚ := ((a * x - 5 * a) * x + 8 * a) * x - 4 * a

/-- `F.interpolate(..., mode='bicubic')` (align_corners=False) on a
(1, K) knot row, read along the width dimension (the height dimension has
size 1 and the four cubic weights sum to 1, so the single row passes
through): source `s = K/fs * (j + 1/2) - 1/2`, four taps at
`⌊s⌋ - 1 .. ⌊s⌋ + 2` clamped into `[0, K-1]`. -/
def cubicInterp1d (fs : ℕ) (knots : List ℚ) : List ℚ :=
  let K := knots.length
  let a : ℚ := -3/4
  (List.range fs).map (fun (j : ℕ) =>
    let s : ℚ := (K : ℚ) * ((j : ℚ) + 1/2) / (fs : ℚ) - 1/2
    let i : ℤ := ⌊s⌋
    let tt : ℚ := s - (i : ℚ)
    let g : ℤ → ℚ := fun z => knots.getD ((min (max z 0) ((K : ℤ) - 1)).toNat) 0
    cubicConvFar (tt + 1) a * g (i - 1) + cubicConvNear tt a * g i +
      cubicConvNear (1 - tt) a * g (i + 1) + cubicConvFar (2 - tt) a * g (i + 2))

/-- `forecast[i*b:(i+1)*b] += vals`: add `vals` into the buffer slice
starting at `start`. -/
def sliceAdd (buf : List (List ℚ)) (start : ℕ) (vals : List (List ℚ)) :
    List (List ℚ) :=
  buf.take start ++ List.zipWith vAdd (buf.drop start) vals ++
    buf.drop (start + vals.length)

/-- The cubic sub-batch loop (lines 204-208): `nb` iterations, each
interpolating the slice `knots[start : start+bsz]` and adding the result
into the zero-initialised buffer at the same offset. -/
def accumLoop (f : List ℚ → List ℚ) (bsz : ℕ) (rows : List (List ℚ)) :
    ℕ → ℕ → List (List ℚ) → List (List ℚ)
  | _, 0, buf => buf
  | start, nb + 1, buf =>
    accumLoop f bsz rows (start + bsz) nb
      (sliceAdd buf start (((rows.drop start).take bsz).map f))

/-- The cubic branch of `IdentityBasis.forward`:
`forecast = t.zeros((len(knots), fs))`, then
`for i in range(int(np.ceil(len(knots)/batch_size)))` accumulate slicewise. -/
def cubicForecastBatched (bsz fs : ℕ) (knots : List (List ℚ)) :
    List (List ℚ) :=
  accumLoop (cubicInterp1d fs) bsz knots 0 (ceilDiv knots.length bsz)
    (List.replicate knots.length (List.replicate fs 0))

/-- `IdentityBasis.forward` (lines 188-210): split `theta` into the raw
backcast segment and the knots, then interpolate the knots to the full
horizon.  `none` models the Python error paths (a mode string matching no
branch, an unparsable or zero cubic batch size). -/
def identityBasisForward (mode : String) (backcastSize fs : ℕ)
    (theta : List (List ℚ)) :
    Option (List (List ℚ) × List (List ℚ)) :=
  let backcast := theta.map (List.take backcastSize)
  let knots := theta.map (List.drop backcastSize)
  if mode = "nearest" then
    some (backcast, knots.map (nearestInterp1d fs))
  else if mode = "linear" then
    some (backcast, knots.map (linearInterp1d fs))
  else if strContains mode "cubic" then
    match cubicBatchSize mode with
    | some b => if b = 0 then none else some (backcast, cubicForecastBatched b fs knots)
    | none => none
  else none

/-! ### Construction-time validation (`_NHITSBlock.__init__`,
`init_weights`, `_NHITS.create_stack`) -/

/-- `ACTIVATIONS` (lines 268-275). -/
def ACTIVATIONS : List String :=
  ["ReLU", "Softplus", "Tanh", "SELU", "LeakyReLU", "PReLU", "Sigmoid", "Sin"]

/-- The initialization names `init_weights` (lines 245-262) recognises
for `nn.Linear` weights. -/
def INITIALIZATIONS : List String :=
  ["orthogonal", "he_uniform", "he_normal", "glorot_uniform",
   "glorot_normal", "Sin", "lecun_normal"]

/-- The pooling modes the assert on line 289 accepts. -/
def POOLING_MODES : List String := ["max", "conv", "stochastic", "none"]

/-- The stack types `create_stack` (line 687-694) accepts. -/
def STACK_TYPES : List String := ["identity"]

/-- Whether the hidden-layer chain contains an `nn.Linear` submodule:
only the `layer_mode == 'linear'` branch constructs
`_HiddenFeaturesLinearEncoder`; the conv branches construct only
`Conv1d`/`ConvTranspose1d`/`BatchNorm1d`. -/
def hiddenHasLinear (layerMode : String) (targets : List ℕ) : Bool :=
  layerMode = "linear" && !targets.isEmpty

/-- Whether the output chain contains an `nn.Linear` submodule. -/
def outputLayerHasLinear (ls : List OutLayer) : Bool :=
  ls.any (fun l => match l with | .linEnc _ _ => true | _ => false)

/-- Whether any submodule of `nbeats_block.layers` is an `nn.Linear`
(these are the modules `init_weights`'s unknown-name assert fires on). -/
def blockHasLinear (layerMode outputLayer : String) (w0 : ℕ)
    (targets : List ℕ) (nTheta : ℕ) : Bool :=
  hiddenHasLinear layerMode targets ||
    outputLayerHasLinear
      (outputLayerList outputLayer (hiddenChainWidth layerMode w0 targets) nTheta)

/-- Whether constructing one `_NHITSBlock` and applying `init_weights`
raises: the pooling assert (line 289), the activation assert (line 311),
the `pooling_mode == 'conv'` branch (line 340) which calls
`_HiddenFeaturesDownSampleEncoder` without its required `num_features`
and `activ` arguments (a TypeError), and the `init_weights` assert
(line 262), which fires only when some `nn.Linear` is present. -/
def blockConstructRaises (poolingMode activation initialization layerMode
    outputLayer : String) (w0 : ℕ) (targets : List ℕ) (nTheta : ℕ) : Bool :=
  !(POOLING_MODES.contains poolingMode) ||
  !(ACTIVATIONS.contains activation) ||
  (poolingMode = "conv") ||
  (!(INITIALIZATIONS.contains initialization) &&
    blockHasLinear layerMode outputLayer w0 targets nTheta)

/-- The constructor arguments of `_NHITS` that construction-time
validation depends on. -/
structure NHITSConfig where
  nTimeIn : ℕ
  nTimeOut : ℕ
  nX : ℕ
  nS : ℕ
  nSHidden : ℕ
  stackTypes : List String
  nBlocks : List ℕ
  nThetaHidden : List (List ℕ)
  nPoolKernelSize : List ℕ
  nFreqDownsample : List ℕ
  poolingMode : String
  layerMode : String
  outputLayer : String
  interpMode : String
  activation : String
  initialization : String
  batchNorm : Bool
  sharedWeights : Bool

/-- The first entry of the block's width list (line 291-295):
`n_time_in_pooled + (n_time_in + n_time_out) * n_x + n_s_hidden`, with
`n_s_hidden` zeroed when `n_s == 0`. -/
def blockInputWidth (c : NHITSConfig) (i : ℕ) : ℕ :=
  nTimeInPooled c.nTimeIn (c.nPoolKernelSize.getD i 1) +
    (c.nTimeIn + c.nTimeOut) * c.nX +
    (if c.nS = 0 then 0 else c.nSHidden)

/-- `n_theta` for stack `i` (line 688):
`n_time_in + max(n_time_out // n_freq_downsample[i], 1)`. -/
def stackNTheta (c : NHITSConfig) (i : ℕ) : ℕ :=
  c.nTimeIn + max (c.nTimeOut / c.nFreqDownsample.getD i 1) 1

/-- Whether stack `i` of `create_stack` raises: it constructs a block at
all only when `n_blocks[i] ≥ 1` (with `shared_weights`, blocks after the
first reuse `block_list[-1]` without re-running any check); the first
construction hits the stack-type assert (line 694), the `IdentityBasis`
assert (line 183) and the block/init checks. -/
def stackRaises (c : NHITSConfig) (i : ℕ) : Bool :=
  decide (1 ≤ c.nBlocks.getD i 0) &&
    (!(STACK_TYPES.contains (c.stackTypes.getD i "")) ||
     !(interpModeOk c.interpMode) ||
     blockConstructRaises c.poolingMode c.activation c.initialization
       c.layerMode c.outputLayer (blockInputWidth c i)
       (c.nThetaHidden.getD i []) (stackNTheta c i))

/-- Whether `_NHITS.__init__` / `create_stack` raises for configuration
`c`. -/
def modelConstructRaises (c : NHITSConfig) : Bool :=
  (List.range c.stackTypes.length).any (stackRaises c)

/-! ### `create_stack` block identity (lines 661-719) -/

/-- One position of the built block list: `uid` counts `_NHITSBlock(...)`
constructor calls (so two positions alias the same Python object exactly
when their `uid`s agree) and `bn` is the `batch_normalization_block`
value the referenced block was constructed with. -/
structure BlockRef where
  uid : ℕ
  bn : Bool
deriving DecidableEq

/-- The inner `for block_id in range(n_blocks[i])` loop of
`create_stack`: `batch_normalization_block` is true only when the global
`block_list` is still empty and the flag is set; with `shared_weights`
and `block_id > 0` the previous entry is reused by reference. -/
def addStackBlocks (shared bnFlag : Bool) :
    ℕ → ℕ → List BlockRef → ℕ → List BlockRef × ℕ
  | _, 0, acc, nextId => (acc, nextId)
  | blockId, cnt + 1, acc, nextId =>
    if shared && decide (0 < blockId) then
      addStackBlocks shared bnFlag (blockId + 1) cnt
        (acc ++ [acc.getLastD ⟨0, false⟩]) nextId
    else
      addStackBlocks shared bnFlag (blockId + 1) cnt
        (acc ++ [⟨nextId, acc.isEmpty && bnFlag⟩]) (nextId + 1)

/-- The outer stack loop of `create_stack`, returning the built
`block_list`. -/
def createStackRefs (shared bnFlag : Bool) (nbs : List ℕ) : List BlockRef :=
  (nbs.foldl (fun st nb => addStackBlocks shared bnFlag 0 nb st.1 st.2)
    ([], 0)).1

/-- Written from the spec's words (§4.7 weight sharing): with sharing
enabled, each stack contributes `n_blocks[i]` copies of one single block
reference; only the first stack with any blocks can carry batch
normalization. -/
def sharedSpecGo (bnFlag : Bool) : List ℕ → ℕ → Bool → List BlockRef
  | [], _, _ => []
  | nb :: rest, nextId, noneYet =>
    if nb = 0 then sharedSpecGo bnFlag rest nextId noneYet
    else
      List.replicate nb ⟨nextId, noneYet && bnFlag⟩ ++
        sharedSpecGo bnFlag rest (nextId + 1) false

/-! ## Lemmas and claim theorems -/

/-- The last-column slice of a nonempty row is the singleton of its last
element, whatever the default. -/
theorem drop_pred_length_eq_getLastD (r : List ℚ) (hr : r ≠ []) :
    ∀ d : ℚ, r.drop (r.length - 1) = [r.getLastD d] := by
  induction r with
  | nil => exact absurd rfl hr
  | cons a t ih =>
    intro d
    cases t with
    | nil => rfl
    | cons b t' =>
      have h1 : (a :: b :: t').length - 1 = t'.length + 1 := by
        simp [List.length_cons]
      rw [h1, List.drop_succ_cons, List.getLastD_cons]
      have h2 : (b :: t').length - 1 = t'.length := by simp
      have := ih (List.cons_ne_nil b t') a
      rwa [h2] at this

/-- The plain and decomposition loops share their forecast recurrence. -/
theorem forecastLoop_eq_specForecastGo (ix ox : List (List (List ℚ)))
    (xs mask : List (List ℚ)) :
    ∀ (bs : List NBlock) (r f : List (List ℚ)),
      forecastLoop ix ox xs mask bs r f = specForecastGo ix ox xs mask bs (r, f) := by
  intro bs
  induction bs with
  | nil => intro r f; rfl
  | cons blk bs ih => intro r f; simp only [forecastLoop, specForecastGo]; exact ih _ _

/-- Claim C1: `_NHITS.forecast` reverses the insample signal, exogenous
and mask along time, initialises the running forecast to the last
observed insample value (naive level), and then, block by block, updates
the residual to `(residual - backcast) * mask` and accumulates the block
forecast; the returned value is the accumulator after the last block
(the recurrence the spec §4.7 describes). -/
theorem claim_C1_forecast_recurrence (blocks : List NBlock)
    (y : List (List ℚ)) (ix : List (List (List ℚ))) (mask : List (List ℚ))
    (ox : List (List (List ℚ))) (xs : List (List ℚ))
    (hy : ∀ r ∈ y, r ≠ []) :
    nhitsForecast blocks y ix mask ox xs = specForecast blocks y ix mask ox xs := by
  unfold nhitsForecast specForecast
  rw [forecastLoop_eq_specForecastGo]
  have hinit : lastCols y = y.map (fun r => [r.getLastD 0]) := by
    unfold lastCols
    exact List.map_congr_left (fun r hr => drop_pred_length_eq_getLastD r (hy r hr) 0)
  rw [hinit]

/-- Witness for C1 at a concrete batch, block and exogenous tensors. -/
theorem claim_C1_forecast_recurrence_witness :
    nhitsForecast [fun r _ _ _ => (r, [[1, 2]])] [[5, 7]] [[[1, 2]]]
        [[1, 1]] [[[3, 4]]] [[0]] =
      specForecast [fun r _ _ _ => (r, [[1, 2]])] [[5, 7]] [[[1, 2]]]
        [[1, 1]] [[[3, 4]]] [[0]] :=
  claim_C1_forecast_recurrence _ _ _ _ _ _ (by decide)

/-- Counterexample to C3 as stated: in a hidden conv layer mapping the
configured pair (W_in, W_out) = (10, 4), the derived kernel = stride = 2
produces actual width 5, and no reconciling layer is chained — the chain
output width is 5, not the configured 4. -/
theorem claim_C3_counterexample :
    hiddenChainWidth "conv" 10 [4] = 5 ∧ (5 : ℕ) ≠ 4 := by decide

/-- Claim C3 (amended): kernel/stride are derived as the claim states,
and the chain output width equals the configured target for linear
layers, for conv hidden layers with width ratio < 2, and for the output
layer in every mode (where strided slack is reconciled by a trailing
linear layer); but a hidden conv layer with ratio ≥ 2 instead replaces
the configured width with the strided conv's actual output width. -/
theorem claim_C3_amended (wIn wOut wLast nTheta : ℕ) (mode : String)
    (hIn : 1 ≤ wIn) (hOut : 1 ≤ wOut) (hLast : 1 ≤ wLast) (hTheta : 1 ≤ nTheta) :
    (hiddenStepWidth "linear" wIn wOut = wOut) ∧
    (wOut < wIn → wIn / wOut < 2 → hiddenStepWidth "conv" wIn wOut = wOut) ∧
    (wIn < wOut → wOut / wIn < 2 → hiddenStepWidth "conv" wIn wOut = wOut) ∧
    (wOut < wIn → 2 ≤ wIn / wOut →
      hiddenStepWidth "conv" wIn wOut =
        conv1dOutLen wIn (wIn / wOut) (wIn / wOut)) ∧
    (wIn < wOut → 2 ≤ wOut / wIn →
      hiddenStepWidth "conv" wIn wOut =
        convTranspose1dOutLen wIn (wOut / wIn) (wOut / wIn)) ∧
    (mode ∈ (["linear", "conv", "max"] : List String) →
      chainOut wLast (outputLayerList mode wLast nTheta) = nTheta) := by
  have hup_eq : ∀ a b : ℕ, 1 ≤ a → b / a * a = b →
      chainOut a [OutLayer.convUp (b / a) (b / a)] = b := by
    intro a b ha hba
    simp only [chainOut, List.foldl_cons, List.foldl_nil, outLayerOut,
      convTranspose1dOutLen]
    have hstep : (a - 1) * (b / a) + b / a = (a - 1 + 1) * (b / a) := by ring
    rw [hstep, Nat.sub_add_cancel ha, mul_comm]
    exact hba
  refine ⟨by simp [hiddenStepWidth], ?_, ?_, ?_, ?_, ?_⟩
  · intro h1 h2
    simp [hiddenStepWidth, h1, Nat.not_le.mpr h2, conv1dOutLen]
    omega
  · intro h1 h2
    have hnlt : ¬ wOut < wIn := by omega
    simp [hiddenStepWidth, h1, Nat.not_le.mpr h2, hnlt, convTranspose1dOutLen]
    omega
  · intro h1 h2
    simp [hiddenStepWidth, h1, h2]
  · intro h1 h2
    have hnlt : ¬ wOut < wIn := by omega
    simp [hiddenStepWidth, h1, h2, hnlt]
  · intro hm
    simp only [List.mem_cons, List.mem_singleton, List.not_mem_nil, or_false] at hm
    rcases hm with h | h | h <;> subst h
    · simp [outputLayerList, chainOut, outLayerOut]
    · unfold outputLayerList
      rw [if_neg (by decide), if_pos rfl]
      split_ifs with h1 h2 h3 h4 h5 h6
      · simp [chainOut, outLayerOut]
      · simpa [chainOut, outLayerOut] using (not_ne_iff.mp h3)
      · simp only [chainOut, List.foldl_cons, List.foldl_nil, outLayerOut,
          conv1dOutLen, Nat.div_one]
        omega
      · simp [chainOut, outLayerOut]
      · exact hup_eq wLast nTheta hLast (not_ne_iff.mp h6)
      · simp only [chainOut, List.foldl_cons, List.foldl_nil, outLayerOut,
          convTranspose1dOutLen]
        omega
      · simp [chainOut, outLayerOut]
    · unfold outputLayerList
      rw [if_neg (by decide), if_neg (by decide), if_pos rfl]
      split_ifs with h1 h2 h3
      · simp [chainOut, outLayerOut]
      · simpa [chainOut, outLayerOut] using (not_ne_iff.mp h3)
      · simp only [chainOut, List.foldl_cons, List.foldl_nil, outLayerOut,
          conv1dOutLen, Nat.div_one]
        omega
      · simp [chainOut, outLayerOut]

/-- Witness for the amended C3 at concrete widths: a ratio-1 hidden conv
step hits its target exactly, and the "conv" output chain from width 9
to `n_theta` = 4 (kernel 2, slack-free) ends at exactly 4. -/
theorem claim_C3_amended_witness :
    (1 ≤ 6 ∧ 1 ≤ 4 ∧ 1 ≤ 9 ∧ 1 ≤ 4) ∧
    ((hiddenStepWidth "linear" 6 4 = 4) ∧
     (4 < 6 → 6 / 4 < 2 → hiddenStepWidth "conv" 6 4 = 4) ∧
     (6 < 4 → 4 / 6 < 2 → hiddenStepWidth "conv" 6 4 = 4) ∧
     (4 < 6 → 2 ≤ 6 / 4 →
       hiddenStepWidth "conv" 6 4 = conv1dOutLen 6 (6 / 4) (6 / 4)) ∧
     (6 < 4 → 2 ≤ 4 / 6 →
       hiddenStepWidth "conv" 6 4 = convTranspose1dOutLen 6 (4 / 6) (4 / 6)) ∧
     ("conv" ∈ (["linear", "conv", "max"] : List String) →
       chainOut 9 (outputLayerList "conv" 9 4) = 4)) :=
  ⟨by omega,
   claim_C3_amended 6 4 9 4 "conv" (by decide) (by decide) (by decide) (by decide)⟩

/-- Claim C4 (code bug evaluated): on an insample window of length 5
with pooling kernel 2, `nn.MaxPool1d(2, 2)` and `StochasticPool1D`
produce temporal length 2 = floor(5/2), while the block's derived
`n_time_in_pooled` is 3 = ceil(5/2), as the claim states — the two
disagree whenever the kernel does not divide the length. -/
theorem claim_C4_code_bug :
    (maxPool1dRow 2 2 [1, 2, 3, 4, 5]).length = 2 ∧
    ((stochasticPoolForward 2 [[1, 2, 3, 4, 5]] [0, 0]).getD 0 []).length = 2 ∧
    nTimeInPooled 5 2 = 3 ∧ (2 : ℕ) ≠ 3 := by decide

/-- Claim C8 (code bug evaluated): `t.take` flattens its input, so every
pooled value is read from the first kernel window of the first batch row.
With one batch row [10, 20, 30, 40], kernel 2 and drawn offsets [0, 1],
the code yields [[10, 20]] while the spec's per-window selection yields
[[10, 40]]. -/
theorem claim_C8_code_bug :
    stochasticPoolForward 2 [[10, 20, 30, 40]] [0, 1] = [[10, 20]] ∧
    stochasticPoolSpec 2 [[10, 20, 30, 40]] [0, 1] = [[10, 40]] ∧
    ([[(10 : ℚ), 20]] : List (List ℚ)) ≠ [[10, 40]] := by decide

/-- Counterexample to C5 as stated: a configuration whose initialization
name "foo" is outside the enumerated set, but whose block (conv hidden
layers 2→4, conv output layer 4→3 with width ratio < 2) contains no
`nn.Linear` submodule, so `init_weights` never hits its assert and model
construction raises no error. -/
theorem claim_C5_counterexample :
    modelConstructRaises
      { nTimeIn := 2, nTimeOut := 1, nX := 0, nS := 0, nSHidden := 0,
        stackTypes := ["identity"], nBlocks := [1], nThetaHidden := [[4]],
        nPoolKernelSize := [1], nFreqDownsample := [1],
        poolingMode := "max", layerMode := "conv", outputLayer := "conv",
        interpMode := "nearest", activation := "ReLU",
        initialization := "foo", batchNorm := false,
        sharedWeights := false } = false ∧
    INITIALIZATIONS.contains "foo" = false := by decide

/-- Claim C5 (amended): for any stack that constructs at least one
block, an unrecognised activation, pooling mode or stack type raises at
construction; an unrecognised initialization raises if and only if some
`nn.Linear` submodule is present in the block's layer chain (it is
silently accepted for conv-only chains); and for names inside all the
enumerated sets construction raises no error — except that the
in-set pooling mode "conv" itself fails at construction, because its
branch calls `_HiddenFeaturesDownSampleEncoder` without the required
`num_features`/`activ` arguments. -/
theorem claim_C5_amended (c : NHITSConfig)
    (_hout : c.outputLayer ∈ (["linear", "conv", "max"] : List String))
    (hinterp : interpModeOk c.interpMode = true) :
    ((ACTIVATIONS.contains c.activation = false ∨
        POOLING_MODES.contains c.poolingMode = false) →
      ∀ i, i < c.stackTypes.length → 1 ≤ c.nBlocks.getD i 0 →
        modelConstructRaises c = true) ∧
    (∀ i, i < c.stackTypes.length → 1 ≤ c.nBlocks.getD i 0 →
      STACK_TYPES.contains (c.stackTypes.getD i "") = false →
      modelConstructRaises c = true) ∧
    (∀ i, i < c.stackTypes.length → 1 ≤ c.nBlocks.getD i 0 →
      INITIALIZATIONS.contains c.initialization = false →
      blockHasLinear c.layerMode c.outputLayer (blockInputWidth c i)
        (c.nThetaHidden.getD i []) (stackNTheta c i) = true →
      modelConstructRaises c = true) ∧
    (ACTIVATIONS.contains c.activation = true →
      POOLING_MODES.contains c.poolingMode = true →
      INITIALIZATIONS.contains c.initialization = true →
      (∀ i, i < c.stackTypes.length →
        STACK_TYPES.contains (c.stackTypes.getD i "") = true) →
      c.poolingMode ≠ "conv" →
      modelConstructRaises c = false) := by
  refine ⟨?_, ?_, ?_, ?_⟩
  · intro hbad i hi hnb
    unfold modelConstructRaises
    rw [List.any_eq_true]
    refine ⟨i, List.mem_range.mpr hi, ?_⟩
    unfold stackRaises blockConstructRaises
    rw [Bool.and_eq_true]
    refine ⟨decide_eq_true hnb, ?_⟩
    rcases hbad with h | h <;>
      simp only [h, Bool.not_false, Bool.true_or, Bool.or_true]
  · intro i hi hnb h
    unfold modelConstructRaises
    rw [List.any_eq_true]
    refine ⟨i, List.mem_range.mpr hi, ?_⟩
    unfold stackRaises
    rw [Bool.and_eq_true]
    refine ⟨decide_eq_true hnb, ?_⟩
    simp only [h, Bool.not_false, Bool.true_or]
  · intro i hi hnb hinit hlin
    unfold modelConstructRaises
    rw [List.any_eq_true]
    refine ⟨i, List.mem_range.mpr hi, ?_⟩
    unfold stackRaises blockConstructRaises
    rw [Bool.and_eq_true]
    refine ⟨decide_eq_true hnb, ?_⟩
    simp only [hinit, hlin, Bool.not_false, Bool.and_self, Bool.true_and,
      Bool.or_true]
  · intro ha hp hini hstk hpc
    unfold modelConstructRaises
    rw [List.any_eq_false]
    intro i hmem
    have hst := hstk i (List.mem_range.mp hmem)
    unfold stackRaises blockConstructRaises
    simp only [hst, hinterp, ha, hp, hini, decide_eq_false hpc,
      Bool.not_true, Bool.false_or, Bool.or_false, Bool.or_self,
      Bool.false_and, Bool.and_false]
    exact Bool.false_ne_true

/-- Witness for the amended C5: a fully in-set configuration (max
pooling, linear layers, identity stack, orthogonal initialization)
constructs without error. -/
theorem claim_C5_amended_witness :
    modelConstructRaises
      { nTimeIn := 2, nTimeOut := 1, nX := 0, nS := 0, nSHidden := 0,
        stackTypes := ["identity"], nBlocks := [1], nThetaHidden := [[4]],
        nPoolKernelSize := [1], nFreqDownsample := [1],
        poolingMode := "max", layerMode := "linear", outputLayer := "linear",
        interpMode := "nearest", activation := "ReLU",
        initialization := "orthogonal", batchNorm := false,
        sharedWeights := false } = false :=
  (claim_C5_amended _ (by decide) (by decide)).2.2.2
    (by decide) (by decide) (by decide) (by decide) (by decide)

/-- `cubicInterp1d` always emits exactly `fs` values. -/
theorem cubicInterp1d_length (fs : ℕ) (knots : List ℚ) :
    (cubicInterp1d fs knots).length = fs := by
  unfold cubicInterp1d
  rw [List.length_map, List.length_range]

/-- `nearestInterp1d` always emits exactly `fs` values. -/
theorem nearestInterp1d_length (fs : ℕ) (knots : List ℚ) :
    (nearestInterp1d fs knots).length = fs := by
  unfold nearestInterp1d
  rw [List.length_map, List.length_range]

/-- `linearInterp1d` always emits exactly `fs` values. -/
theorem linearInterp1d_length (fs : ℕ) (knots : List ℚ) :
    (linearInterp1d fs knots).length = fs := by
  unfold linearInterp1d
  rw [List.length_map, List.length_range]

/-- Adding the zero row leaves a row unchanged. -/
theorem vAdd_replicate_zero : ∀ v : List ℚ, vAdd (List.replicate v.length 0) v = v := by
  intro v
  induction v with
  | nil => rfl
  | cons a t ih =>
    show List.zipWith (· + ·) (List.replicate (t.length + 1) 0) (a :: t) = a :: t
    rw [List.replicate_succ, List.zipWith_cons_cons, zero_add]
    exact congrArg (a :: ·) ih

/-- Row-wise addition against enough zero rows is the identity on rows of
the right width. -/
theorem zipWith_vAdd_replicate (fs : ℕ) :
    ∀ (vals : List (List ℚ)) (m : ℕ), vals.length ≤ m →
      (∀ r ∈ vals, r.length = fs) →
      List.zipWith vAdd (List.replicate m (List.replicate fs 0)) vals = vals := by
  intro vals
  induction vals with
  | nil => intro m _ _; simp
  | cons a t ih =>
    intro m hm hr
    cases m with
    | zero => exact absurd hm (by simp)
    | succ m' =>
      rw [List.replicate_succ, List.zipWith_cons_cons]
      have ha : a.length = fs := hr a (List.mem_cons_self a t)
      have h1 : vAdd (List.replicate fs 0) a = a := by
        rw [← ha]; exact vAdd_replicate_zero a
      rw [h1, ih m' (by simpa using Nat.le_of_succ_le_succ (by simpa using hm))
        (fun r hmem => hr r (List.mem_cons_of_mem a hmem))]

/-- Loop iterations whose slice starts past the end of the rows are
no-ops. -/
theorem accumLoop_noop (f : List ℚ → List ℚ) (bsz : ℕ) (rows : List (List ℚ)) :
    ∀ (nb start : ℕ) (buf : List (List ℚ)), rows.length ≤ start →
      accumLoop f bsz rows start nb buf = buf := by
  intro nb
  induction nb with
  | zero => intro start buf _; rfl
  | succ n ih =>
    intro start buf h
    rw [accumLoop]
    have hdrop : rows.drop start = [] := List.drop_eq_nil_of_le h
    rw [hdrop]
    simp only [List.take_nil, List.map_nil]
    have hslice2 : sliceAdd buf start [] = buf := by
      unfold sliceAdd
      rw [List.zipWith_nil_right, List.length_nil, Nat.add_zero,
        List.append_nil, List.take_append_drop]
    rw [hslice2]
    exact ih (start + bsz) buf (by omega)

/-- One full run of the cubic sub-batch loop: with the prefix `pre`
already accumulated into `P` and the remaining rows still zero, the loop
maps `f` over the remaining rows slice by slice. -/
theorem accumLoop_run (f : List ℚ → List ℚ) (fs : ℕ)
    (hf : ∀ x, (f x).length = fs) (bsz : ℕ) (_hb : 1 ≤ bsz) :
    ∀ (nb : ℕ) (pre suf P : List (List ℚ)),
      P.length = pre.length → suf.length ≤ nb * bsz →
      accumLoop f bsz (pre ++ suf) pre.length nb
          (P ++ List.replicate suf.length (List.replicate fs 0)) =
        P ++ suf.map f := by
  intro nb
  induction nb with
  | zero =>
    intro pre suf P hP hsuf
    have hnil : suf = [] := List.eq_nil_of_length_eq_zero (by omega)
    subst hnil
    simp [accumLoop]
  | succ n ih =>
    intro pre suf P hP hsuf
    rw [accumLoop]
    have hdrop : (pre ++ suf).drop pre.length = suf := List.drop_left pre suf
    rw [hdrop]
    have hmap_len : ((suf.take bsz).map f).length = (suf.take bsz).length :=
      List.length_map _ _
    have htake : (P ++ List.replicate suf.length (List.replicate fs 0)).take
        pre.length = P := by
      rw [← hP]; exact List.take_left P _
    have hdropbuf : (P ++ List.replicate suf.length (List.replicate fs 0)).drop
        pre.length = List.replicate suf.length (List.replicate fs 0) := by
      rw [← hP]; exact List.drop_left P _
    have hzip : List.zipWith vAdd (List.replicate suf.length (List.replicate fs 0))
        ((suf.take bsz).map f) = (suf.take bsz).map f := by
      refine zipWith_vAdd_replicate fs _ _ ?_ ?_
      · rw [hmap_len, List.length_take]; omega
      · intro r hmem
        rcases List.mem_map.mp hmem with ⟨x, _, rfl⟩
        exact hf x
    have hdrop2 : (P ++ List.replicate suf.length (List.replicate fs 0)).drop
        (pre.length + ((suf.take bsz).map f).length) =
        List.replicate (suf.length - (suf.take bsz).length)
          (List.replicate fs 0) := by
      rw [← List.drop_drop, hdropbuf, List.drop_replicate, hmap_len]
    have hslice : sliceAdd (P ++ List.replicate suf.length (List.replicate fs 0))
        pre.length ((suf.take bsz).map f) =
        P ++ (suf.take bsz).map f ++
          List.replicate (suf.length - (suf.take bsz).length)
            (List.replicate fs 0) := by
      unfold sliceAdd
      rw [htake, hdropbuf, hzip, hdrop2]
    rw [hslice]
    by_cases hcase : suf.length ≤ bsz
    · have hch : suf.take bsz = suf := List.take_of_length_le hcase
      rw [hch, Nat.sub_self, List.replicate_zero, List.append_nil]
      exact accumLoop_noop f bsz (pre ++ suf) n (pre.length + bsz) _
        (by rw [List.length_append]; omega)
    · push_neg at hcase
      have hchlen : (suf.take bsz).length = bsz := by
        rw [List.length_take]; omega
      have hrows : pre ++ suf = (pre ++ suf.take bsz) ++ suf.drop bsz := by
        rw [List.append_assoc, List.take_append_drop]
      have hstart : pre.length + bsz = (pre ++ suf.take bsz).length := by
        rw [List.length_append, hchlen]
      have hrep : suf.length - (suf.take bsz).length = (suf.drop bsz).length := by
        rw [List.length_drop, hchlen]
      rw [hrep, hrows, hstart, List.append_assoc P]
      rw [← List.append_assoc P]
      have hih := ih (pre ++ suf.take bsz) (suf.drop bsz) (P ++ (suf.take bsz).map f)
        (by rw [List.length_append, List.length_append, hmap_len, hchlen, hP])
        (by rw [List.length_drop]
            rw [Nat.succ_mul] at hsuf
            omega)
      rw [hih, List.append_assoc, ← List.map_append, List.take_append_drop]

/-- Lower bound: `ceil(n / b) * b ≥ n`. -/
theorem le_ceilDiv_mul (n b : ℕ) (hb : 1 ≤ b) : n ≤ ceilDiv n b * b := by
  unfold ceilDiv
  have hdm := Nat.div_add_mod (n + b - 1) b
  have hmod : (n + b - 1) % b < b := Nat.mod_lt _ (by omega)
  rw [Nat.mul_comm]
  obtain ⟨X, hX⟩ : ∃ X, b * ((n + b - 1) / b) = X := ⟨_, rfl⟩
  rw [hX] at hdm ⊢
  omega

/-- The batched cubic loop equals a plain per-row map. -/
theorem cubicBatched_eq_map (bsz fs : ℕ) (hb : 1 ≤ bsz)
    (knots : List (List ℚ)) :
    cubicForecastBatched bsz fs knots = knots.map (cubicInterp1d fs) := by
  unfold cubicForecastBatched
  have h := accumLoop_run (cubicInterp1d fs) fs (cubicInterp1d_length fs) bsz hb
    (ceilDiv knots.length bsz) [] knots [] rfl
    (le_ceilDiv_mul knots.length bsz hb)
  simpa using h

/-- Claim C7: the cubic branch processes the batch in sequential
sub-batches, accumulating each slice into a zero-initialised buffer, and
for every positive configured sub-batch size the result equals the
single full-batch pass (the per-row interpolation map) — exactly, in
exact rational arithmetic. -/
theorem claim_C7_cubic_batching (bsz fs : ℕ) (knots : List (List ℚ))
    (hb : 1 ≤ bsz) :
    cubicForecastBatched bsz fs knots = knots.map (cubicInterp1d fs) :=
  cubicBatched_eq_map bsz fs hb knots

/-- Witness for C7 at sub-batch size 2 on a three-row batch. -/
theorem claim_C7_cubic_batching_witness :
    1 ≤ 2 ∧ cubicForecastBatched 2 1 [[1], [2], [3]] =
      ([[1], [2], [3]] : List (List ℚ)).map (cubicInterp1d 1) :=
  ⟨by decide, claim_C7_cubic_batching 2 1 [[1], [2], [3]] (by decide)⟩

/-- Claim C6: `IdentityBasis.forward` returns the first `backcast_size`
coefficients unchanged as the backcast, and for all three interpolation
modes (nearest, linear, cubic with a positive sub-batch size) the
backcast and forecast have exactly `backcast_size` and `forecast_size`
columns over the whole batch. -/
theorem claim_C6_identity_basis (mode : String) (bs fs K : ℕ)
    (theta : List (List ℚ))
    (hmode : mode = "nearest" ∨ mode = "linear" ∨
      (mode ≠ "nearest" ∧ mode ≠ "linear" ∧ strContains mode "cubic" = true ∧
        ∃ b, cubicBatchSize mode = some b ∧ 1 ≤ b))
    (hrows : ∀ r ∈ theta, r.length = bs + K) (hK : 1 ≤ K) :
    ∃ res, identityBasisForward mode bs fs theta = some res ∧
      res.1 = theta.map (List.take bs) ∧
      res.1.length = theta.length ∧ res.2.length = theta.length ∧
      (∀ r ∈ res.1, r.length = bs) ∧ (∀ r ∈ res.2, r.length = fs) := by
  have hback : ∀ r ∈ theta.map (List.take bs), r.length = bs := by
    intro r hr
    rcases List.mem_map.mp hr with ⟨r0, hr0, rfl⟩
    rw [List.length_take, hrows r0 hr0]
    omega
  rcases hmode with h | h | h
  · subst h
    refine ⟨(theta.map (List.take bs), (theta.map (List.drop bs)).map
      (nearestInterp1d fs)), ?_, rfl, by simp, by simp, hback, ?_⟩
    · simp [identityBasisForward]
    · intro r hr
      rcases List.mem_map.mp hr with ⟨k, _, rfl⟩
      exact nearestInterp1d_length fs k
  · subst h
    refine ⟨(theta.map (List.take bs), (theta.map (List.drop bs)).map
      (linearInterp1d fs)), ?_, rfl, by simp, by simp, hback, ?_⟩
    · simp [identityBasisForward]
    · intro r hr
      rcases List.mem_map.mp hr with ⟨k, _, rfl⟩
      exact linearInterp1d_length fs k
  · rcases h with ⟨hne1, hne2, hcontains, b, hparse, hbpos⟩
    have hEq : identityBasisForward mode bs fs theta =
        some (theta.map (List.take bs),
          cubicForecastBatched b fs (theta.map (List.drop bs))) := by
      unfold identityBasisForward
      rw [if_neg hne1, if_neg hne2, if_pos hcontains, hparse]
      exact if_neg (by omega : ¬ b = 0)
    refine ⟨(theta.map (List.take bs),
      cubicForecastBatched b fs (theta.map (List.drop bs))), hEq, rfl,
      by simp, ?_, hback, ?_⟩
    · rw [cubicBatched_eq_map b fs hbpos]
      simp
    · rw [cubicBatched_eq_map b fs hbpos]
      intro r hr
      rcases List.mem_map.mp hr with ⟨k, _, rfl⟩
      exact cubicInterp1d_length fs k

/-- Witness for C6 in nearest mode on a one-row batch with backcast
width 1, one knot and horizon 2. -/
theorem claim_C6_identity_basis_witness :
    (∀ r ∈ ([[5, 7]] : List (List ℚ)), r.length = 1 + 1) ∧
    ∃ res, identityBasisForward "nearest" 1 2 [[5, 7]] = some res ∧
      res.1 = ([[5, 7]] : List (List ℚ)).map (List.take 1) ∧
      res.1.length = ([[5, 7]] : List (List ℚ)).length ∧
      res.2.length = ([[5, 7]] : List (List ℚ)).length ∧
      (∀ r ∈ res.1, r.length = 1) ∧ (∀ r ∈ res.2, r.length = 2) :=
  ⟨by decide, claim_C6_identity_basis "nearest" 1 2 1 [[5, 7]]
    (Or.inl rfl) (by decide) (by decide)⟩

/-- The default-valued last element of a nonempty list is a member. -/
theorem getLastD_mem {α : Type} (l : List α) (d : α) (hl : l ≠ []) :
    l.getLastD d ∈ l := by
  induction l with
  | nil => exact absurd rfl hl
  | cons a t ih =>
    cases t with
    | nil => simp
    | cons b t' =>
      rw [List.getLastD_cons]
      exact List.mem_cons_of_mem a (ih (List.cons_ne_nil b t'))

/-- With sharing on and a positive `block_id`, the rest of a stack's
inner loop appends copies of the current last entry. -/
theorem addStackBlocks_share_run (bnFlag : Bool) :
    ∀ (cnt : ℕ) (bi : ℕ) (acc : List BlockRef) (x : BlockRef) (next : ℕ),
      acc.getLastD ⟨0, false⟩ = x → 0 < bi →
      addStackBlocks true bnFlag bi cnt acc next =
        (acc ++ List.replicate cnt x, next) := by
  intro cnt
  induction cnt with
  | zero => intro bi acc x next _ _; simp [addStackBlocks]
  | succ n ih =>
    intro bi acc x next hx hbi
    rw [addStackBlocks, if_pos (by simp [hbi])]
    rw [ih (bi + 1) (acc ++ [acc.getLastD (⟨0, false⟩ : BlockRef)]) x next
      (by rw [List.getLastD_concat]; exact hx) (Nat.succ_pos bi)]
    rw [hx, List.append_assoc]
    simp [List.replicate_succ]

/-- With sharing on, one whole stack appends `n_blocks` copies of a
single fresh block (or nothing when `n_blocks = 0`). -/
theorem addStackBlocks_stack_run (bnFlag : Bool) (nb : ℕ)
    (acc : List BlockRef) (next : ℕ) :
    addStackBlocks true bnFlag 0 nb acc next =
      if nb = 0 then (acc, next)
      else (acc ++ List.replicate nb ⟨next, acc.isEmpty && bnFlag⟩, next + 1) := by
  cases nb with
  | zero => simp [addStackBlocks]
  | succ n =>
    rw [if_neg (Nat.succ_ne_zero n)]
    rw [addStackBlocks, if_neg (by simp)]
    rw [addStackBlocks_share_run bnFlag n 1
      (acc ++ [(⟨next, acc.isEmpty && bnFlag⟩ : BlockRef)])
      (⟨next, acc.isEmpty && bnFlag⟩ : BlockRef)
      (next + 1) (List.getLastD_concat _ _ _) Nat.one_pos]
    rw [List.append_assoc]
    simp [List.replicate_succ]

/-- The shared-weights stack fold, fully characterised. -/
theorem createStack_shared_run (bnFlag : Bool) :
    ∀ (nbs : List ℕ) (acc : List BlockRef) (next : ℕ),
      (nbs.foldl (fun st nb => addStackBlocks true bnFlag 0 nb st.1 st.2)
          (acc, next)).1 =
        acc ++ sharedSpecGo bnFlag nbs next acc.isEmpty := by
  intro nbs
  induction nbs with
  | nil => intro acc next; simp [sharedSpecGo]
  | cons nb rest ih =>
    intro acc next
    rw [List.foldl_cons, addStackBlocks_stack_run]
    by_cases hnb : nb = 0
    · subst hnb
      rw [if_pos rfl, ih, sharedSpecGo, if_pos rfl]
    · rw [if_neg hnb, ih, sharedSpecGo, if_neg hnb]
      have hne : (acc ++
          List.replicate nb (⟨next, acc.isEmpty && bnFlag⟩ : BlockRef)).isEmpty
          = false := by
        cases nb with
        | zero => exact absurd rfl hnb
        | succ m => simp [List.isEmpty_iff, List.replicate_succ]
      rw [hne, List.append_assoc]

/-- Claim C9: with weight sharing enabled, `create_stack` builds, for
each stack, `n_blocks[i]` occurrences of one single block reference (one
constructor call, aliased into every later position of that stack) —
every block after the first within a stack is the very same instance as
that stack's first block. -/
theorem claim_C9_weight_sharing (bnFlag : Bool) (nbs : List ℕ) :
    createStackRefs true bnFlag nbs = sharedSpecGo bnFlag nbs 0 true := by
  unfold createStackRefs
  rw [createStack_shared_run]
  rfl

/-- One inner stack loop preserves the batch-normalization invariant:
an entry's constructed-with flag is set iff it references the very first
constructed block and the model flag is set. -/
theorem addStackBlocks_bn_inv (shared bnFlag : Bool) :
    ∀ (cnt : ℕ) (bi : ℕ) (acc : List BlockRef) (next : ℕ),
      (acc.isEmpty = true ↔ next = 0) → (bi = 0 ∨ acc ≠ []) →
      (∀ r ∈ acc, r.bn = (bnFlag && decide (r.uid = 0))) →
      ((addStackBlocks shared bnFlag bi cnt acc next).1.isEmpty = true ↔
        (addStackBlocks shared bnFlag bi cnt acc next).2 = 0) ∧
      (∀ r ∈ (addStackBlocks shared bnFlag bi cnt acc next).1,
        r.bn = (bnFlag && decide (r.uid = 0))) := by
  intro cnt
  induction cnt with
  | zero => intro bi acc next h1 _ h3; exact ⟨h1, h3⟩
  | succ n ih =>
    intro bi acc next h1 h2 h3
    rw [addStackBlocks]
    by_cases hs : (shared && decide (0 < bi)) = true
    · rw [if_pos hs]
      have hbi : 0 < bi := by
        have := (Bool.and_eq_true _ _).mp hs
        exact of_decide_eq_true this.2
      have hacc : acc ≠ [] := by
        rcases h2 with h | h
        · omega
        · exact h
      have hnext : ¬ next = 0 := by
        intro h0
        exact hacc (List.isEmpty_iff.mp (h1.mpr h0))
      refine ih (bi + 1) (acc ++ [acc.getLastD ⟨0, false⟩]) next ?_ ?_ ?_
      · constructor
        · intro h; simp [List.isEmpty_iff] at h
        · intro h; exact absurd h hnext
      · exact Or.inr (by simp)
      · intro r hr
        rcases List.mem_append.mp hr with h | h
        · exact h3 r h
        · rw [List.mem_singleton.mp h]
          exact h3 _ (getLastD_mem acc ⟨0, false⟩ hacc)
    · rw [if_neg hs]
      have hflag : acc.isEmpty = decide (next = 0) := by
        by_cases h0 : next = 0
        · rw [h1.mpr h0, h0]; rfl
        · cases hh : acc.isEmpty
          · simp [h0]
          · exact absurd (h1.mp hh) h0
      refine ih (bi + 1) (acc ++ [⟨next, acc.isEmpty && bnFlag⟩]) (next + 1)
        ?_ (Or.inr (by simp)) ?_
      · constructor
        · intro h; simp [List.isEmpty_iff] at h
        · intro h; exact absurd h (Nat.succ_ne_zero next)
      · intro r hr
        rcases List.mem_append.mp hr with h | h
        · exact h3 r h
        · have hr' := List.mem_singleton.mp h
          subst hr'
          show (acc.isEmpty && bnFlag) = (bnFlag && decide (next = 0))
          rw [hflag, Bool.and_comm]

/-- Claim C10: in the block list `create_stack` builds, an entry was
constructed with `batch_normalization_block = True` exactly when it
references the very first constructed block of the whole model and the
model-level flag is set — every subsequent block construction passes
batch normalization disabled, regardless of the flag. -/
theorem claim_C10_batch_norm_first_block (shared bnFlag : Bool) (nbs : List ℕ) :
    ∀ r ∈ createStackRefs shared bnFlag nbs,
      r.bn = (bnFlag && decide (r.uid = 0)) := by
  unfold createStackRefs
  suffices h : ∀ (nbs : List ℕ) (acc : List BlockRef) (next : ℕ),
      (acc.isEmpty = true ↔ next = 0) →
      (∀ r ∈ acc, r.bn = (bnFlag && decide (r.uid = 0))) →
      ((nbs.foldl (fun st nb => addStackBlocks shared bnFlag 0 nb st.1 st.2)
          (acc, next)).1.isEmpty = true ↔
        (nbs.foldl (fun st nb => addStackBlocks shared bnFlag 0 nb st.1 st.2)
          (acc, next)).2 = 0) ∧
      (∀ r ∈ (nbs.foldl (fun st nb => addStackBlocks shared bnFlag 0 nb st.1 st.2)
          (acc, next)).1, r.bn = (bnFlag && decide (r.uid = 0))) by
    exact (h nbs [] 0 (by simp) (by simp)).2
  intro nbs
  induction nbs with
  | nil => intro acc next h1 h2; exact ⟨h1, h2⟩
  | cons nb rest ih =>
    intro acc next h1 h2
    rw [List.foldl_cons]
    have hstep := addStackBlocks_bn_inv shared bnFlag nb 0 acc next h1
      (Or.inl rfl) h2
    exact ih _ _ hstep.1 hstep.2

/-- Witness for C10: in a two-block unshared model with the flag set,
the first constructed block carries batch normalization. -/
theorem claim_C10_batch_norm_first_block_witness :
    (⟨0, true⟩ : BlockRef) ∈ createStackRefs false true [2] ∧
    (⟨0, true⟩ : BlockRef).bn = (true && decide ((0 : ℕ) = 0)) :=
  ⟨by decide, claim_C10_batch_norm_first_block false true [2] _ (by decide)⟩

/-! ### Lemmas for C2 (decomposition consistency) -/

/-- The decomposition loop's aggregate forecast is the plain loop's. -/
theorem forecastDecompLoop_fst (ix ox : List (List (List ℚ)))
    (xs mask : List (List ℚ)) :
    ∀ (bs : List NBlock) (r f : List (List ℚ)),
      (forecastDecompLoop ix ox xs mask bs r f).1 =
        forecastLoop ix ox xs mask bs r f := by
  intro bs
  induction bs with
  | nil => intro r f; rfl
  | cons blk tl ih =>
    intro r f
    simp only [forecastDecompLoop, forecastLoop]
    exact ih _ _

/-- Broadcasting a singleton row adds its scalar to every entry. -/
theorem bAddRow_singleton (x : ℚ) : ∀ b : List ℚ,
    bAddRow [x] b = b.map (fun y => x + y)
  | [] => rfl
  | [_] => rfl
  | _ :: _ :: _ => rfl

/-- Broadcasting row addition coincides with plain row addition on
equal-width rows. -/
theorem bAddRow_eq_vAdd : ∀ (a b : List ℚ), a.length = b.length →
    bAddRow a b = vAdd a b
  | [], [], _ => rfl
  | [], _ :: _, h => absurd h (by simp)
  | _ :: _, [], h => absurd h (by simp)
  | [_], [_], _ => rfl
  | [_], _ :: _ :: _, h => absurd h (by simp)
  | _ :: _ :: _, [_], h => absurd h (by simp)
  | _ :: _ :: _, _ :: _ :: _, _ => rfl

/-- Broadcasting a scalar as a zipped addition with a constant row. -/
theorem map_add_replicate (c : ℚ) : ∀ (v : List ℚ) (n : ℕ), v.length = n →
    vAdd (List.replicate n c) v = v.map (fun y => c + y) := by
  intro v
  induction v with
  | nil => intro n h; subst h; rfl
  | cons a t ih =>
    intro n h
    subst h
    show List.zipWith (· + ·) (List.replicate (t.length + 1) c) (a :: t) = _
    rw [List.replicate_succ, List.zipWith_cons_cons, List.map_cons]
    exact congrArg ((c + a) :: ·) (ih t.length rfl)

/-- `getD` distributes over `zipWith` at in-range indices. -/
theorem getD_zipWith (g : List ℚ → List ℚ → List ℚ) (A C : List (List ℚ))
    (b : ℕ) (hA : b < A.length) (hC : b < C.length) :
    (List.zipWith g A C).getD b [] = g (A.getD b []) (C.getD b []) := by
  rw [List.getD_eq_getElem _ _ (by rw [List.length_zipWith]; omega),
    List.getElem_zipWith, List.getD_eq_getElem _ _ hA,
    List.getD_eq_getElem _ _ hC]

/-- `getD` distributes over `map` at in-range indices. -/
theorem getD_map_of_lt {α β : Type} (g : α → β) (l : List α) (b : ℕ)
    (h : b < l.length) (d : β) (d' : α) :
    (l.map g).getD b d = g (l.getD b d') := by
  rw [List.getD_eq_getElem _ _ (by simpa using h), List.getElem_map,
    List.getD_eq_getElem _ _ h]

/-- `getD` on a map over `List.range`. -/
theorem getD_range_map {β : Type} (g : ℕ → β) (n b : ℕ) (h : b < n) (d : β) :
    ((List.range n).map g).getD b d = g b := by
  rw [getD_map_of_lt g _ b (by simpa using h) d 0, List.getD_eq_getElem _ _
    (by simpa using h), List.getElem_range]

/-- Joining `n` copies of a singleton gives `n` copies of its element. -/
theorem flatten_replicate_singleton (x : ℚ) :
    ∀ n : ℕ, (List.replicate n [x]).flatten = List.replicate n x := by
  intro n
  induction n with
  | zero => rfl
  | succ m ih => rw [List.replicate_succ, List.flatten_cons, ih]; rfl

/-- Row widths are preserved by broadcasting matrix addition when the
left rows are scalars or already full width. -/
theorem mBAdd_row_width (H : ℕ) : ∀ (f g : List (List ℚ)),
    (∀ r ∈ f, r.length = 1 ∨ r.length = H) → (∀ r ∈ g, r.length = H) →
    ∀ r ∈ mBAdd f g, r.length = H := by
  intro f
  induction f with
  | nil => intro g _ _ r hr; simp [mBAdd] at hr
  | cons a t ih =>
    intro g hf hg r hr
    cases g with
    | nil => simp [mBAdd] at hr
    | cons bb u =>
      rw [mBAdd, List.zipWith_cons_cons] at hr
      rcases List.mem_cons.mp hr with h | h
      · subst h
        have hbb : bb.length = H := hg bb (List.mem_cons_self bb u)
        rcases hf a (List.mem_cons_self a t) with h1 | h1
        · rcases List.length_eq_one.mp h1 with ⟨x, rfl⟩
          rw [bAddRow_singleton, List.length_map, hbb]
        · rw [bAddRow_eq_vAdd a bb (by omega), vAdd, List.length_zipWith]
          omega
      · exact ih u (fun r' hr' => hf r' (List.mem_cons_of_mem a hr'))
          (fun r' hr' => hg r' (List.mem_cons_of_mem bb hr')) r h

/-- On matrices whose rows all have width `H`, broadcasting matrix
addition is plain row-wise addition. -/
theorem mBAdd_eq_zipWith_vAdd (H : ℕ) : ∀ (f g : List (List ℚ)),
    (∀ r ∈ f, r.length = H) → (∀ r ∈ g, r.length = H) →
    mBAdd f g = List.zipWith vAdd f g := by
  intro f
  induction f with
  | nil => intro g _ _; rfl
  | cons a t ih =>
    intro g hf hg
    cases g with
    | nil => rfl
    | cons bb u =>
      rw [mBAdd, List.zipWith_cons_cons, List.zipWith_cons_cons]
      rw [bAddRow_eq_vAdd a bb (by
        rw [hf a (List.mem_cons_self a t), hg bb (List.mem_cons_self bb u)])]
      rw [show List.zipWith bAddRow t u = mBAdd t u from rfl,
        ih u (fun r hr => hf r (List.mem_cons_of_mem a hr))
          (fun r hr => hg r (List.mem_cons_of_mem bb hr))]

/-- Widths are preserved by row-wise matrix addition. -/
theorem zipWith_vAdd_row_width (H : ℕ) : ∀ (f g : List (List ℚ)),
    (∀ r ∈ f, r.length = H) → (∀ r ∈ g, r.length = H) →
    ∀ r ∈ List.zipWith vAdd f g, r.length = H := by
  intro f
  induction f with
  | nil => intro g _ _ r hr; simp at hr
  | cons a t ih =>
    intro g hf hg r hr
    cases g with
    | nil => simp at hr
    | cons bb u =>
      rw [List.zipWith_cons_cons] at hr
      rcases List.mem_cons.mp hr with h | h
      · subst h
        rw [vAdd, List.length_zipWith, hf a (List.mem_cons_self a t),
          hg bb (List.mem_cons_self bb u), Nat.min_self]
      · exact ih u (fun r' hr' => hf r' (List.mem_cons_of_mem a hr'))
          (fun r' hr' => hg r' (List.mem_cons_of_mem bb hr')) r h

/-- Every matrix the decomposition loop records has one row per batch
element. -/
theorem forecastDecompLoop_rec_lengths (ix ox : List (List (List ℚ)))
    (xs mask : List (List ℚ)) (B : ℕ) :
    ∀ (bs : List NBlock),
      (∀ blk ∈ bs, ∀ r, ((blk r ix ox xs).2).length = B) →
      ∀ (r f : List (List ℚ)),
        ∀ M ∈ (forecastDecompLoop ix ox xs mask bs r f).2, M.length = B := by
  intro bs
  induction bs with
  | nil => intro _ r f M hM; simp [forecastDecompLoop] at hM
  | cons blk tl ih =>
    intro hblk r f M hM
    simp only [forecastDecompLoop] at hM
    rcases List.mem_cons.mp hM with h | h
    · subst h; exact hblk blk (List.mem_cons_self blk tl) r
    · exact ih (fun b' hb' r' => hblk b' (List.mem_cons_of_mem blk hb') r') _ _ M h

/-- Summing the recorded per-block forecasts (as whole matrices) on top
of the running accumulator reproduces the loop's aggregate forecast. -/
theorem forecastDecompLoop_matrix_sum (ix ox : List (List (List ℚ)))
    (xs mask : List (List ℚ)) (B H : ℕ) :
    ∀ (bs : List NBlock),
      (∀ blk ∈ bs, ∀ r, ((blk r ix ox xs).2).length = B ∧
        ∀ row ∈ (blk r ix ox xs).2, row.length = H) →
      ∀ (r f : List (List ℚ)), f.length = B → (∀ row ∈ f, row.length = H) →
        List.foldl (List.zipWith vAdd) f
            (forecastDecompLoop ix ox xs mask bs r f).2 =
          (forecastDecompLoop ix ox xs mask bs r f).1 := by
  intro bs
  induction bs with
  | nil => intro _ r f _ _; rfl
  | cons blk tl ih =>
    intro hblk r f hfB hfH
    obtain ⟨hbfB, hbfH⟩ := hblk blk (List.mem_cons_self blk tl) r
    simp only [forecastDecompLoop, List.foldl_cons]
    rw [← mBAdd_eq_zipWith_vAdd H f (blk r ix ox xs).2 hfH hbfH]
    refine ih (fun b' hb' r' => hblk b' (List.mem_cons_of_mem blk hb') r') _ _
      ?_ ?_
    · rw [mBAdd, List.length_zipWith]; omega
    · exact mBAdd_row_width H f (blk r ix ox xs).2
        (fun r' hr' => Or.inr (hfH r' hr')) hbfH

/-- Extracting batch row `b` commutes with the matrix-level summation. -/
theorem foldl_vAdd_getD (B b : ℕ) (hb : b < B) :
    ∀ (recs : List (List (List ℚ))) (A : List (List ℚ)), A.length = B →
      (∀ M ∈ recs, M.length = B) →
      List.foldl vAdd (A.getD b []) (recs.map (fun M => M.getD b [])) =
        (List.foldl (List.zipWith vAdd) A recs).getD b [] := by
  intro recs
  induction recs with
  | nil => intro A _ _; rfl
  | cons M rest ih =>
    intro A hA hrecs
    rw [List.map_cons, List.foldl_cons, List.foldl_cons]
    rw [← getD_zipWith vAdd A M b (by omega)
      (by rw [hrecs M (List.mem_cons_self M rest)]; omega)]
    exact ih (List.zipWith vAdd A M)
      (by rw [List.length_zipWith, hA, hrecs M (List.mem_cons_self M rest)];
          exact Nat.min_self B)
      (fun M' hM' => hrecs M' (List.mem_cons_of_mem M hM'))

/-- Claim C2: recording the decomposition does not alter the aggregate
forecast; the aggregate equals the sum across the per-block axis of the
recorded forecasts; and each batch row's first recorded entry is the
naive level broadcast across the horizon. -/
theorem claim_C2_decomposition_consistency (blocks : List NBlock)
    (y : List (List ℚ)) (ix : List (List (List ℚ))) (mask : List (List ℚ))
    (ox : List (List (List ℚ))) (xs : List (List ℚ)) (H : ℕ)
    (hne : blocks ≠ [])
    (hox : ((ox.headD []).headD []).length = H)
    (hy : ∀ r ∈ y, r ≠ [])
    (hblk : ∀ blk ∈ blocks, ∀ r,
      ((blk r (flip3 ix) ox xs).2).length = y.length ∧
      ∀ row ∈ (blk r (flip3 ix) ox xs).2, row.length = H) :
    (nhitsForecastDecomposition blocks y ix mask ox xs).1 =
      nhitsForecast blocks y ix mask ox xs ∧
    (∀ b, b < y.length →
      sumRows
          (((nhitsForecastDecomposition blocks y ix mask ox xs).2).getD b []) =
        (nhitsForecast blocks y ix mask ox xs).getD b []) ∧
    (∀ b, b < y.length →
      (((nhitsForecastDecomposition blocks y ix mask ox xs).2).getD b
          []).headD [] =
        List.replicate H ((y.getD b []).getLastD 0)) := by
  obtain ⟨blk0, tl, rfl⟩ : ∃ blk0 tl, blocks = blk0 :: tl := by
    cases blocks with
    | nil => exact absurd rfl hne
    | cons a l => exact ⟨a, l, rfl⟩
  have hlastlen : (lastCols y).length = y.length := List.length_map _ _
  have hlvlRow : ∀ b, b < y.length →
      (lastCols y).getD b [] = [(y.getD b []).getLastD 0] := by
    intro b hb
    rw [show lastCols y = y.map (fun r => r.drop (r.length - 1)) from rfl]
    rw [getD_map_of_lt _ y b hb [] []]
    have hmem : y.getD b [] ∈ y := by
      rw [List.getD_eq_getElem _ _ hb]; exact List.getElem_mem _
    exact drop_pred_length_eq_getLastD (y.getD b []) (hy _ hmem) 0
  have hlvlRep : ∀ b, b < y.length →
      (levelRepeat ((ox.headD []).headD []).length (lastCols y)).getD b [] =
        List.replicate H ((y.getD b []).getLastD 0) := by
    intro b hb
    rw [show levelRepeat ((ox.headD []).headD []).length (lastCols y) =
      (lastCols y).map (fun r =>
        (List.replicate ((ox.headD []).headD []).length r).flatten) from rfl]
    rw [getD_map_of_lt _ (lastCols y) b (by omega) [] []]
    rw [hlvlRow b hb, hox, flatten_replicate_singleton]
  have hD2 : (nhitsForecastDecomposition (blk0 :: tl) y ix mask ox xs).2 =
      permute102 (levelRepeat ((ox.headD []).headD []).length (lastCols y) ::
        (forecastDecompLoop (flip3 ix) ox xs (flipRows mask) (blk0 :: tl)
          (flipRows y) (lastCols y)).2) := rfl
  have hrowD2 : ∀ b, b < y.length →
      ((nhitsForecastDecomposition (blk0 :: tl) y ix mask ox xs).2).getD b [] =
        (levelRepeat ((ox.headD []).headD []).length (lastCols y) ::
          (forecastDecompLoop (flip3 ix) ox xs (flipRows mask) (blk0 :: tl)
            (flipRows y) (lastCols y)).2).map (fun m => m.getD b []) := by
    intro b hb
    rw [hD2]
    rw [show permute102 (levelRepeat ((ox.headD []).headD []).length
        (lastCols y) ::
        (forecastDecompLoop (flip3 ix) ox xs (flipRows mask) (blk0 :: tl)
          (flipRows y) (lastCols y)).2) =
      (List.range ((levelRepeat ((ox.headD []).headD []).length
          (lastCols y)).length)).map
        (fun b' => (levelRepeat ((ox.headD []).headD []).length (lastCols y) ::
          (forecastDecompLoop (flip3 ix) ox xs (flipRows mask) (blk0 :: tl)
            (flipRows y) (lastCols y)).2).map (fun m => m.getD b' []))
      from rfl]
    have hblen : b < (levelRepeat ((ox.headD []).headD []).length
        (lastCols y)).length := by
      rw [levelRepeat, List.length_map, hlastlen]; exact hb
    rw [getD_range_map _ _ b hblen []]
  refine ⟨?_, ?_, ?_⟩
  · exact forecastDecompLoop_fst (flip3 ix) ox xs (flipRows mask)
      (blk0 :: tl) (flipRows y) (lastCols y)
  · intro b hb
    rw [hrowD2 b hb, List.map_cons]
    show List.foldl vAdd
      ((levelRepeat ((ox.headD []).headD []).length (lastCols y)).getD b [])
      (((forecastDecompLoop (flip3 ix) ox xs (flipRows mask) (blk0 :: tl)
        (flipRows y) (lastCols y)).2).map (fun m => m.getD b [])) = _
    obtain ⟨hbf0B, hbf0H⟩ :=
      hblk blk0 (List.mem_cons_self blk0 tl) (flipRows y)
    have hbf0b_len : ((blk0 (flipRows y) (flip3 ix) ox xs).2).getD b [] ∈
        (blk0 (flipRows y) (flip3 ix) ox xs).2 := by
      rw [List.getD_eq_getElem _ _ (by omega)]
      exact List.getElem_mem _
    simp only [forecastDecompLoop, List.map_cons, List.foldl_cons]
    rw [hlvlRep b hb]
    rw [map_add_replicate ((y.getD b []).getLastD 0)
      ((blk0 (flipRows y) (flip3 ix) ox xs).2.getD b []) H (hbf0H _ hbf0b_len)]
    have haddRow : ((blk0 (flipRows y) (flip3 ix) ox xs).2.getD b []).map
        (fun v => (y.getD b []).getLastD 0 + v) =
        (mBAdd (lastCols y) (blk0 (flipRows y) (flip3 ix) ox xs).2).getD b [] := by
      rw [show mBAdd (lastCols y) (blk0 (flipRows y) (flip3 ix) ox xs).2 =
        List.zipWith bAddRow (lastCols y)
          (blk0 (flipRows y) (flip3 ix) ox xs).2 from rfl]
      rw [getD_zipWith bAddRow _ _ b (by omega) (by omega)]
      rw [hlvlRow b hb, bAddRow_singleton]
    rw [haddRow]
    have hf1B : (mBAdd (lastCols y)
        (blk0 (flipRows y) (flip3 ix) ox xs).2).length = y.length := by
      rw [mBAdd, List.length_zipWith, hlastlen, hbf0B]
      exact Nat.min_self _
    have hf1H : ∀ row ∈ mBAdd (lastCols y)
        (blk0 (flipRows y) (flip3 ix) ox xs).2, row.length = H := by
      refine mBAdd_row_width H _ _ ?_ hbf0H
      intro r hr
      rcases List.mem_map.mp hr with ⟨r0, hr0, rfl⟩
      left
      rw [List.length_drop]
      have : r0 ≠ [] := hy r0 hr0
      have : 0 < r0.length := List.length_pos.mpr this
      omega
    rw [foldl_vAdd_getD y.length b hb _ _ hf1B
      (forecastDecompLoop_rec_lengths (flip3 ix) ox xs (flipRows mask)
        y.length tl
        (fun b' hb' r' => (hblk b' (List.mem_cons_of_mem blk0 hb') r').1) _ _)]
    rw [forecastDecompLoop_matrix_sum (flip3 ix) ox xs (flipRows mask)
      y.length H tl (fun b' hb' r' => hblk b' (List.mem_cons_of_mem blk0 hb') r')
      _ _ hf1B hf1H]
    rw [forecastDecompLoop_fst]
    rfl
  · intro b hb
    rw [hrowD2 b hb, List.map_cons, List.headD_cons]
    exact hlvlRep b hb

/-- Witness for C2: one constant block on a one-row batch with horizon
2. -/
theorem claim_C2_decomposition_consistency_witness :
    (nhitsForecastDecomposition [fun r _ _ _ => (r, [[1, 2]])] [[5, 7]]
        [[[1, 2]]] [[1, 1]] [[[3, 4]]] [[0]]).1 =
      nhitsForecast [fun r _ _ _ => (r, [[1, 2]])] [[5, 7]] [[[1, 2]]]
        [[1, 1]] [[[3, 4]]] [[0]] ∧
    (∀ b, b < ([[5, 7]] : List (List ℚ)).length →
      sumRows (((nhitsForecastDecomposition [fun r _ _ _ => (r, [[1, 2]])]
          [[5, 7]] [[[1, 2]]] [[1, 1]] [[[3, 4]]] [[0]]).2).getD b []) =
        (nhitsForecast [fun r _ _ _ => (r, [[1, 2]])] [[5, 7]] [[[1, 2]]]
          [[1, 1]] [[[3, 4]]] [[0]]).getD b []) ∧
    (∀ b, b < ([[5, 7]] : List (List ℚ)).length →
      (((nhitsForecastDecomposition [fun r _ _ _ => (r, [[1, 2]])] [[5, 7]]
          [[[1, 2]]] [[1, 1]] [[[3, 4]]] [[0]]).2).getD b []).headD [] =
        List.replicate 2 ((([[5, 7]] : List (List ℚ)).getD b []).getLastD 0)) :=
  claim_C2_decomposition_consistency [fun r _ _ _ => (r, [[1, 2]])] [[5, 7]]
    [[[1, 2]]] [[1, 1]] [[[3, 4]]] [[0]] 2 (List.cons_ne_nil _ _) rfl
    (by decide)
    (by
      intro blk hm r
      have hb : blk = fun r _ _ _ => (r, [[1, 2]]) := List.mem_singleton.mp hm
      subst hb
      refine ⟨rfl, ?_⟩
      intro row hrow
      have h2 : row = [1, 2] := List.mem_singleton.mp hrow
      subst h2
      rfl)

end NHits
